import Mathlib

/-!
Verification of the Boggle solver (src/BoggleSolver.py).

The Python program builds a prefix tree (Trie) from a dictionary of words and
runs a backtracking depth-first search over a 4x4 letter board, marking cells
with the sentinel character during the active path and restoring them on
return.  This file gives a shallow embedding of that program:

* `TrieNode`, `insertT`, `buildTrie` embed `TrieNode`, `Trie.insert`,
  `Trie.buildRoot` (children are an insertion-ordered association list,
  exactly as a Python dict behaves);
* `getAdjCells`, `dfs`, `findValidWords`, `runSearch`, `getValidWords`
  embed `ValidWordsGenerator`, with the mutable board made explicit as a
  `Fin 4 → Fin 4 → Char` state that is threaded through the calls;
* `generateValidWords` embeds the top-level entry point with its shape check.

Python's `DFS` has no fuel parameter; the embedding uses a fuel argument and
proves that any fuel above the cell count of the board (16) gives the same
result, so `dfs 17` is the function the source computes.
-/

set_option maxHeartbeats 1600000

/-- Uppercase a single character, modelling Python `str.upper()` on the
single-character board letters and on dictionary letters.  This is exactly
core `Char.toUpper` (basic-latin uppercasing); we give it the short name the
proofs use. -/
def up (c : Char) : Char := Char.toUpper c

/-- A trie node of the source: a `valid` end-of-word flag plus a children
dictionary, modelled as an insertion-ordered association list (Python dicts
preserve insertion order, and `Trie.insert` only ever appends new keys). -/
inductive TrieNode : Type where
  | mk : Bool → List (Char × TrieNode) → TrieNode

/-- The end-of-word marker of a node (`TrieNode.valid` in the source). -/
def TrieNode.valid : TrieNode → Bool
  | .mk v _ => v

/-- The children dictionary of a node (`TrieNode.children` in the source). -/
def TrieNode.children : TrieNode → List (Char × TrieNode)
  | .mk _ c => c

/-- Dictionary read `children[letter]` / membership test `letter in children`:
first entry with the given key, if any. -/
def lookupC : List (Char × TrieNode) → Char → Option TrieNode
  | [], _ => none
  | (k, v) :: rest, c => if k = c then some v else lookupC rest c

/-- In-place update of the entry holding key `c` (the Python code mutates
`children[firstLetter]` through the recursive `insert` call). -/
def updateChild : List (Char × TrieNode) → Char → (TrieNode → TrieNode) → List (Char × TrieNode)
  | [], _, _ => []
  | (k, v) :: rest, c, f =>
    if k = c then (k, f v) :: rest else (k, v) :: updateChild rest c f

/-- `Trie.insert`: walk the word one letter at a time; a missing child is
created (appended to the dict), and a newly created node is marked valid
exactly when it is the final letter of the inserted word.  Note that an
already existing final-letter node is NOT marked valid — this is the
behaviour of the source, where the `valid = True` assignment sits inside the
`if firstLetter not in children` branch. -/
def insertT : List Char → TrieNode → TrieNode
  | [], node => node
  | c :: rest, node =>
    let children1 :=
      if (lookupC node.children c).isSome then node.children
      else node.children ++ [(c, TrieNode.mk (decide (rest = [])) [])]
    TrieNode.mk node.valid (updateChild children1 c (insertT rest))

/-- `Trie.buildRoot`: starting from a fresh root, insert every dictionary
word of length at least 3, uppercased; shorter entries are skipped before
any of their letters is examined. -/
def buildTrie (dict : List (List Char)) : TrieNode :=
  dict.foldl (fun t w => if 3 ≤ w.length then insertT (w.map up) t else t)
    (TrieNode.mk false [])

/-- Walk the trie from a node along a letter sequence (the co-descent the
search performs); `none` when some letter has no child entry. -/
def follow : TrieNode → List Char → Option TrieNode
  | t, [] => some t
  | t, c :: rest =>
    match lookupC t.children c with
    | none => none
    | some child => follow child rest

/-- The 4x4 letter grid, one character per cell. -/
abbrev Board := Fin 4 → Fin 4 → Char

/-- A cell coordinate (row, column). -/
abbrev Cell := Fin 4 × Fin 4

/-- Write one cell of the board (`board[r][c] = v`). -/
def updB (b : Board) (r : Fin 4) (c : Fin 4) (v : Char) : Board :=
  fun r2 c2 => if r2 = r ∧ c2 = c then v else b r2 c2

/-- The mutable state of one `ValidWordsGenerator` run: the shared board and
the accumulating result set `validWords`. -/
structure SearchState where
  board : Board
  validWords : Finset (List Char)

/-- The eight direction offsets, in source order. -/
def directions : List (Int × Int) :=
  [(-1, -1), (-1, 0), (-1, 1), (0, -1), (0, 1), (1, -1), (1, 0), (1, 1)]

/-- `getAdjCells`: the in-bounds neighbours of `(x, y)`, in direction order. -/
def getAdjCells (x y : Fin 4) : List Cell :=
  directions.filterMap fun m =>
    if h : 0 ≤ (x.val : Int) + m.1 ∧ (x.val : Int) + m.1 < 4 ∧
           0 ≤ (y.val : Int) + m.2 ∧ (y.val : Int) + m.2 < 4 then
      some (⟨((x.val : Int) + m.1).toNat, by omega⟩, ⟨((y.val : Int) + m.2).toNat, by omega⟩)
    else none

/-- The final `board[row][col] = letter` of a `DFS` call (line 72 of the
source), which also leaves the accumulated words untouched. -/
def restore (row col : Fin 4) (letter : Char) (st : SearchState) : SearchState :=
  { board := updB st.board row col letter, validWords := st.validWords }

/-- `ValidWordsGenerator.DFS`.  A visited (sentinel) cell aborts the branch;
otherwise the cell is marked, the uppercased letter is looked up among the
trie node's children, the extended word is recorded when that child is a
valid end of word of length ≥ 3, the search recurses into the neighbours,
and finally the cell is restored to its (uppercased) letter.

The `fuel` argument makes the recursion structural; `dfs_fuel_irrelevant`
below shows any fuel above the board's non-sentinel cell count (at most 16)
computes the same function, so `dfs 17` is the source's `DFS`. -/
def dfs : Nat → Fin 4 → Fin 4 → TrieNode → List Char → SearchState → SearchState
  | 0, _, _, _, _, st => st
  | fuel + 1, row, col, t, w, st =>
    if st.board row col = '*' then st
    else
      match lookupC t.children (up (st.board row col)) with
      | none =>
          restore row col (up (st.board row col))
            { board := updB st.board row col '*', validWords := st.validWords }
      | some child =>
          restore row col (up (st.board row col))
            ((getAdjCells row col).foldl
              (fun s cell => dfs fuel cell.1 cell.2 child (w ++ [up (st.board row col)]) s)
              { board := updB st.board row col '*'
                validWords :=
                  if child.valid = true ∧ 3 ≤ (w ++ [up (st.board row col)]).length then
                    insert (w ++ [up (st.board row col)]) st.validWords
                  else st.validWords })

/-- All 16 cells in the row-major order of `findValidWords`. -/
def allCells : List Cell :=
  ((List.finRange 4).map fun r => (List.finRange 4).map fun c => (r, c)).flatten

/-- `findValidWords`: run the DFS from every cell, threading the shared board
and result set through the calls. -/
def findValidWords (root : TrieNode) (st : SearchState) : SearchState :=
  allCells.foldl (fun s cell => dfs 17 cell.1 cell.2 root [] s) st

/-- A full `ValidWordsGenerator` run: fresh empty result set, trie built from
the dictionary, then `findValidWords` from the caller's board. -/
def runSearch (b : Board) (dict : List (List Char)) : SearchState :=
  findValidWords (buildTrie dict) { board := b, validWords := ∅ }

/-- `getValidWords`: the set of valid words found by a run. -/
def getValidWords (b : Board) (dict : List (List Char)) : Finset (List Char) :=
  (runSearch b dict).validWords

/-- Cell access `board[r][c]` for the raw nested-list board that the entry
point receives (exact for boards that really are 4x4). -/
def toBoard (board : List (List Char)) : Board :=
  fun r c => (board.getD r.val []).getD c.val ' '

/-- The two possible outcomes of `generateValidWords`: the Python function
returns either the invalid-size message string or the set of words. -/
inductive GVWResult : Type where
  | invalid : String → GVWResult
  | ok : Finset (List Char) → GVWResult
deriving DecidableEq

/-- `generateValidWords`: reject the board unless it has 4 rows and its first
row has 4 columns (the only shape facts the source checks), otherwise build
the trie and run the search. -/
def generateValidWords (board : List (List Char)) (dict : List (List Char)) : GVWResult :=
  if board.length ≠ 4 ∨ (board.headD []).length ≠ 4 then
    .invalid "Invalid board size. Please use a 4x4 board."
  else
    .ok (getValidWords (toBoard board) dict)

/-- 8-directional adjacency: distinct cells whose rows and columns each
differ by at most one. -/
def adj8 (a b : Cell) : Prop :=
  a ≠ b ∧ a.1.val ≤ b.1.val + 1 ∧ b.1.val ≤ a.1.val + 1 ∧
    a.2.val ≤ b.2.val + 1 ∧ b.2.val ≤ a.2.val + 1

instance (a b : Cell) : Decidable (adj8 a b) := by
  unfold adj8; infer_instance

/-- `u` is traceable on board `b`: it is spelled, cell by cell, by a simple
path (no repeated cell) of 8-directionally adjacent cells whose uppercased
letters are the letters of `u`, and no cell of the path holds the sentinel
character. -/
def SpellsPath (b : Board) (u : List Char) (p : List Cell) : Prop :=
  p.Nodup ∧ p.Chain' adj8 ∧ u = p.map (fun q => up (b q.1 q.2)) ∧
    ∀ q ∈ p, b q.1 q.2 ≠ '*'

/-- A word the search may soundly report for original board `b` and trie
root `root`: length at least 3, reaching a valid trie node, and traceable on
the board. -/
def SoundWord (b : Board) (root : TrieNode) (u : List Char) : Prop :=
  3 ≤ u.length ∧ (∃ n, follow root u = some n ∧ n.valid = true) ∧ ∃ p, SpellsPath b u p

/-- Relation between the original board `b0` and the in-search board `b`
while the cells of `p` form the active path: path cells hold the sentinel,
all other cells agree with the original up to uppercasing and hold the
sentinel exactly when the original did. -/
def pathInv (b0 : Board) (p : List Cell) (b : Board) : Prop :=
  (∀ q ∈ p, b q.1 q.2 = '*') ∧
    ∀ q : Cell, q ∉ p →
      up (b q.1 q.2) = up (b0 q.1 q.2) ∧ (b q.1 q.2 = '*' ↔ b0 q.1 q.2 = '*')

/-- Number of non-sentinel cells of a board (at most 16). -/
def nonStar (b : Board) : Nat :=
  (Finset.univ.filter fun q : Cell => b q.1 q.2 ≠ '*').card

/-! ### Character facts -/

theorem char_toNat_ofNat {n : Nat} (h : n.isValidChar) : (Char.ofNat n).toNat = n := by
  unfold Char.ofNat
  rw [dif_pos h]
  rfl

theorem char_toNat_inj {a b : Char} (h : a.toNat = b.toNat) : a = b := by
  apply Char.ext
  have : a.val.toNat = b.val.toNat := h
  exact UInt32.toNat.inj this

theorem up_toNat_of_lower {c : Char} (h97 : 97 ≤ c.toNat) (h122 : c.toNat ≤ 122) :
    (up c).toNat = c.toNat - 32 := by
  unfold up Char.toUpper
  rw [if_pos ⟨h97, h122⟩]
  exact char_toNat_ofNat (Or.inl (by omega))

theorem up_of_not_lower {c : Char} (h : ¬(97 ≤ c.toNat ∧ c.toNat ≤ 122)) : up c = c := by
  unfold up Char.toUpper
  exact if_neg h

theorem up_idem (c : Char) : up (up c) = up c := by
  by_cases h : 97 ≤ c.toNat ∧ c.toNat ≤ 122
  · have h1 : (up c).toNat = c.toNat - 32 := up_toNat_of_lower h.1 h.2
    apply up_of_not_lower
    omega
  · rw [up_of_not_lower h, up_of_not_lower h]

theorem up_star_iff {c : Char} : up c = '*' ↔ c = '*' := by
  constructor
  · intro h
    by_cases hl : 97 ≤ c.toNat ∧ c.toNat ≤ 122
    · exfalso
      have h1 : (up c).toNat = c.toNat - 32 := up_toNat_of_lower hl.1 hl.2
      rw [h] at h1
      have h2 : ('*').toNat = 42 := by decide
      omega
    · rwa [up_of_not_lower hl] at h
  · intro h
    subst h
    decide

theorem up_ne_star {c : Char} (h : c ≠ '*') : up c ≠ '*' :=
  fun h2 => h (up_star_iff.mp h2)

/-! ### Trie association-list lemmas -/

@[simp] theorem TrieNode.children_mk (v : Bool) (l : List (Char × TrieNode)) :
    (TrieNode.mk v l).children = l := rfl

@[simp] theorem TrieNode.valid_mk (v : Bool) (l : List (Char × TrieNode)) :
    (TrieNode.mk v l).valid = v := rfl

theorem trie_eta (t : TrieNode) : TrieNode.mk t.valid t.children = t := by
  cases t
  rfl

theorem lookupC_append_of_none {l1 : List (Char × TrieNode)} {c : Char}
    (l2 : List (Char × TrieNode)) (h : lookupC l1 c = none) :
    lookupC (l1 ++ l2) c = lookupC l2 c := by
  induction l1 with
  | nil => rfl
  | cons e rest ih =>
    obtain ⟨k, v⟩ := e
    by_cases hk : k = c
    · simp [lookupC, hk] at h
    · simp only [lookupC, hk, if_neg hk, List.cons_append] at h ⊢
      exact ih h

theorem lookupC_append_of_some {l1 : List (Char × TrieNode)} {c : Char} {x : TrieNode}
    (l2 : List (Char × TrieNode)) (h : lookupC l1 c = some x) :
    lookupC (l1 ++ l2) c = some x := by
  induction l1 with
  | nil => simp [lookupC] at h
  | cons e rest ih =>
    obtain ⟨k, v⟩ := e
    by_cases hk : k = c
    · simp only [lookupC, if_pos hk, List.cons_append] at h ⊢
      exact h
    · simp only [lookupC, if_neg hk, List.cons_append] at h ⊢
      exact ih h

theorem lookupC_updateChild_self (l : List (Char × TrieNode)) (c : Char)
    (f : TrieNode → TrieNode) :
    lookupC (updateChild l c f) c = (lookupC l c).map f := by
  induction l with
  | nil => rfl
  | cons e rest ih =>
    obtain ⟨k, v⟩ := e
    by_cases hk : k = c
    · simp [updateChild, lookupC, hk]
    · simp only [updateChild, if_neg hk, lookupC, ih]

theorem lookupC_updateChild_ne {d c : Char} (hdc : d ≠ c) (l : List (Char × TrieNode))
    (f : TrieNode → TrieNode) :
    lookupC (updateChild l c f) d = lookupC l d := by
  induction l with
  | nil => rfl
  | cons e rest ih =>
    obtain ⟨k, v⟩ := e
    by_cases hk : k = c
    · subst hk
      have hkd : k ≠ d := fun h => hdc h.symm
      simp [updateChild, lookupC, if_neg hkd]
    · by_cases hkd : k = d
      · simp [updateChild, if_neg hk, lookupC, if_pos hkd]
      · simp only [updateChild, if_neg hk, lookupC, if_neg hkd, ih]

theorem updateChild_eq_self {l : List (Char × TrieNode)} {c : Char} {x : TrieNode}
    {f : TrieNode → TrieNode} (hx : lookupC l c = some x) (hf : f x = x) :
    updateChild l c f = l := by
  induction l with
  | nil => rfl
  | cons e rest ih =>
    obtain ⟨k, v⟩ := e
    by_cases hk : k = c
    · simp only [lookupC, if_pos hk] at hx
      obtain rfl : v = x := by injection hx
      simp [updateChild, if_pos hk, hf]
    · simp only [lookupC, if_neg hk] at hx
      simp [updateChild, if_neg hk, ih hx]

/-! ### follow / insertT interaction -/

@[simp] theorem follow_nil (t : TrieNode) : follow t [] = some t := rfl

theorem follow_cons_some {t : TrieNode} {c : Char} {x : TrieNode}
    (h : lookupC t.children c = some x) (q : List Char) :
    follow t (c :: q) = follow x q := by
  simp [follow, h]

theorem follow_cons_none {t : TrieNode} {c : Char}
    (h : lookupC t.children c = none) (q : List Char) :
    follow t (c :: q) = none := by
  simp [follow, h]

theorem follow_leaf {b : Bool} {q : List Char} {n : TrieNode}
    (h : follow (TrieNode.mk b []) q = some n) : q = [] ∧ n = TrieNode.mk b [] := by
  cases q with
  | nil => exact ⟨rfl, by injection h with h2; exact h2.symm⟩
  | cons e q2 => rw [follow_cons_none (by rfl)] at h; cases h

theorem insertT_nil (t : TrieNode) : insertT [] t = t := rfl

theorem insertT_valid_root (c : Char) (rest : List Char) (t : TrieNode) :
    (insertT (c :: rest) t).valid = t.valid := rfl

theorem insertT_children_def (c : Char) (rest : List Char) (t : TrieNode) :
    (insertT (c :: rest) t).children =
      updateChild
        (if (lookupC t.children c).isSome then t.children
         else t.children ++ [(c, TrieNode.mk (decide (rest = [])) [])])
        c (insertT rest) := rfl

theorem lookupC_insertT_self_old {t : TrieNode} {c : Char} {x : TrieNode}
    (rest : List Char) (hx : lookupC t.children c = some x) :
    lookupC (insertT (c :: rest) t).children c = some (insertT rest x) := by
  rw [insertT_children_def, if_pos (by rw [hx]; rfl), lookupC_updateChild_self, hx]
  rfl

theorem lookupC_insertT_self_new {t : TrieNode} {c : Char}
    (rest : List Char) (hx : lookupC t.children c = none) :
    lookupC (insertT (c :: rest) t).children c =
      some (insertT rest (TrieNode.mk (decide (rest = [])) [])) := by
  rw [insertT_children_def, if_neg (by rw [hx]; simp), lookupC_updateChild_self,
    lookupC_append_of_none _ hx]
  simp [lookupC]

theorem lookupC_insertT_ne {t : TrieNode} {c d : Char} (rest : List Char) (hdc : d ≠ c) :
    lookupC (insertT (c :: rest) t).children d = lookupC t.children d := by
  rw [insertT_children_def, lookupC_updateChild_ne hdc]
  by_cases hx : (lookupC t.children c).isSome
  · rw [if_pos hx]
  · rw [if_neg hx]
    cases hd : lookupC t.children d with
    | none =>
        rw [lookupC_append_of_none _ hd]
        have hcd : ¬c = d := fun h => hdc h.symm
        simp [lookupC, hcd]
    | some y => rw [lookupC_append_of_some _ hd]

theorem follow_insertT_old {t : TrieNode} {c : Char} {x : TrieNode}
    (rest q : List Char) (hx : lookupC t.children c = some x) :
    follow (insertT (c :: rest) t) (c :: q) = follow (insertT rest x) q :=
  follow_cons_some (lookupC_insertT_self_old rest hx) q

theorem follow_insertT_new {t : TrieNode} {c : Char}
    (rest q : List Char) (hx : lookupC t.children c = none) :
    follow (insertT (c :: rest) t) (c :: q) =
      follow (insertT rest (TrieNode.mk (decide (rest = [])) [])) q :=
  follow_cons_some (lookupC_insertT_self_new rest hx) q

theorem follow_insertT_ne {t : TrieNode} {c d : Char} (rest : List Char) (q : List Char)
    (hdc : d ≠ c) :
    follow (insertT (c :: rest) t) (d :: q) = follow t (d :: q) := by
  cases hd : lookupC t.children d with
  | none => rw [follow_cons_none (by rw [lookupC_insertT_ne rest hdc]; exact hd),
      follow_cons_none hd]
  | some y => rw [follow_cons_some (by rw [lookupC_insertT_ne rest hdc]; exact hd),
      follow_cons_some hd]

/-! ### Core `Trie.insert` lemmas -/

/-- Insertion produces a valid node only at paths that were already valid or
at exactly the inserted word: the source marks `valid` only on the node it
creates for the final letter. -/
theorem follow_insertT_valid_src (u : List Char) :
    ∀ (t : TrieNode) (p : List Char) (n : TrieNode),
      follow (insertT u t) p = some n → n.valid = true →
      (∃ m, follow t p = some m ∧ m.valid = true) ∨ p = u := by
  induction u with
  | nil =>
    intro t p n h hv
    rw [insertT_nil] at h
    exact Or.inl ⟨n, h, hv⟩
  | cons c rest ih =>
    intro t p n h hv
    cases p with
    | nil =>
      rw [follow_nil] at h
      injection h with h2
      left
      refine ⟨t, follow_nil t, ?_⟩
      rw [← h2] at hv
      rwa [insertT_valid_root] at hv
    | cons d q =>
      by_cases hdc : d = c
      · subst hdc
        cases hx : lookupC t.children d with
        | some x =>
          rw [follow_insertT_old rest q hx] at h
          rcases ih x q n h hv with ⟨m, hm, hmv⟩ | rfl
          · exact Or.inl ⟨m, by rw [follow_cons_some hx]; exact hm, hmv⟩
          · exact Or.inr rfl
        | none =>
          rw [follow_insertT_new rest q hx] at h
          rcases ih _ q n h hv with ⟨m, hm, hmv⟩ | rfl
          · obtain ⟨rfl, rfl⟩ := follow_leaf hm
            have hre : rest = [] := by simpa using hmv
            subst hre
            exact Or.inr rfl
          · exact Or.inr rfl
      · rw [follow_insertT_ne rest q hdc] at h
        exact Or.inl ⟨n, h, hv⟩

/-- Insertion never changes the valid flag of a node that already exists. -/
theorem follow_insertT_presv (u : List Char) :
    ∀ (t : TrieNode) (p : List Char) (m : TrieNode),
      follow t p = some m →
      ∃ n, follow (insertT u t) p = some n ∧ n.valid = m.valid := by
  induction u with
  | nil =>
    intro t p m h
    exact ⟨m, by rw [insertT_nil]; exact h, rfl⟩
  | cons c rest ih =>
    intro t p m h
    cases p with
    | nil =>
      rw [follow_nil] at h
      injection h with h2
      exact ⟨insertT (c :: rest) t, follow_nil _, by rw [insertT_valid_root, h2]⟩
    | cons d q =>
      by_cases hdc : d = c
      · subst hdc
        cases hx : lookupC t.children d with
        | some x =>
          rw [follow_cons_some hx] at h
          obtain ⟨n, hn, hnv⟩ := ih x q m h
          exact ⟨n, by rw [follow_insertT_old rest q hx]; exact hn, hnv⟩
        | none =>
          rw [follow_cons_none hx] at h
          cases h
      · exact ⟨m, by rw [follow_insertT_ne rest q hdc]; exact h, rfl⟩

/-- After inserting `u`, every prefix of `u` is a live path in the trie. -/
theorem follow_insertT_pref (u : List Char) :
    ∀ (t : TrieNode) (p : List Char), p <+: u → (follow (insertT u t) p).isSome := by
  induction u with
  | nil =>
    intro t p hp
    obtain ⟨t2, ht2⟩ := hp
    have : p = [] := by
      cases p with
      | nil => rfl
      | cons d q => rw [List.cons_append] at ht2; cases ht2
    subst this
    simp
  | cons c rest ih =>
    intro t p hp
    cases p with
    | nil => simp
    | cons d q =>
      obtain ⟨t2, ht2⟩ := hp
      rw [List.cons_append] at ht2
      injection ht2 with h1 h2
      subst h1
      have hq : q <+: rest := ⟨t2, h2⟩
      cases hx : lookupC t.children d with
      | some x => rw [follow_insertT_old rest q hx]; exact ih x q hq
      | none => rw [follow_insertT_new rest q hx]; exact ih _ q hq

/-- A path live after inserting `u` was live before, or is a prefix of `u`. -/
theorem follow_insertT_some_inv (u : List Char) :
    ∀ (t : TrieNode) (p : List Char),
      (follow (insertT u t) p).isSome → (follow t p).isSome ∨ p <+: u := by
  induction u with
  | nil =>
    intro t p h
    rw [insertT_nil] at h
    exact Or.inl h
  | cons c rest ih =>
    intro t p h
    cases p with
    | nil => exact Or.inl (by simp)
    | cons d q =>
      by_cases hdc : d = c
      · subst hdc
        cases hx : lookupC t.children d with
        | some x =>
          rw [follow_insertT_old rest q hx] at h
          rcases ih x q h with h2 | h2
          · exact Or.inl (by rw [follow_cons_some hx]; exact h2)
          · right
            obtain ⟨t2, ht2⟩ := h2
            exact ⟨t2, by rw [List.cons_append, ht2]⟩
        | none =>
          rw [follow_insertT_new rest q hx] at h
          rcases ih _ q h with h2 | h2
          · obtain ⟨m, hm⟩ := Option.isSome_iff_exists.mp h2
            obtain ⟨rfl, _⟩ := follow_leaf hm
            exact Or.inr ⟨rest, rfl⟩
          · right
            obtain ⟨t2, ht2⟩ := h2
            exact ⟨t2, by rw [List.cons_append, ht2]⟩
      · rw [follow_insertT_ne rest q hdc] at h
        exact Or.inl h

/-- Inserting a word whose path did not yet fully exist marks the node at the
word's end valid. -/
theorem follow_insertT_new_valid (u : List Char) :
    ∀ (t : TrieNode), follow t u = none →
      ∃ n, follow (insertT u t) u = some n ∧ n.valid = true := by
  induction u with
  | nil =>
    intro t h
    rw [follow_nil] at h
    cases h
  | cons c rest ih =>
    intro t h
    cases hx : lookupC t.children c with
    | some x =>
      rw [follow_cons_some hx] at h
      obtain ⟨n, hn, hnv⟩ := ih x h
      exact ⟨n, by rw [follow_insertT_old rest rest hx]; exact hn, hnv⟩
    | none =>
      rw [follow_insertT_new rest rest hx]
      cases rest with
      | nil => exact ⟨_, by rw [insertT_nil, follow_nil], by simp⟩
      | cons e q =>
        have hnone :
            lookupC (TrieNode.mk (decide ((e :: q : List Char) = [])) []).children e = none := rfl
        exact ih _ (follow_cons_none hnone q)

/-- Inserting a word whose path already fully exists changes nothing at all. -/
theorem insertT_noop (u : List Char) :
    ∀ (t : TrieNode), (follow t u).isSome → insertT u t = t := by
  induction u with
  | nil => intro t _; rfl
  | cons c rest ih =>
    intro t h
    cases hx : lookupC t.children c with
    | none =>
      rw [follow_cons_none hx] at h
      simp at h
    | some x =>
      rw [follow_cons_some hx] at h
      have hx2 : insertT rest x = x := ih x h
      have h1 : (insertT (c :: rest) t).children = t.children := by
        rw [insertT_children_def, if_pos (by rw [hx]; rfl)]
        exact updateChild_eq_self hx hx2
      have h2 : (insertT (c :: rest) t).valid = t.valid := insertT_valid_root c rest t
      calc insertT (c :: rest) t
          = TrieNode.mk (insertT (c :: rest) t).valid (insertT (c :: rest) t).children :=
            (trie_eta _).symm
        _ = TrieNode.mk t.valid t.children := by rw [h1, h2]
        _ = t := trie_eta t

/-! ### `Trie.buildRoot` fold lemmas -/

/-- One step of `Trie.buildRoot`: insert the uppercased word when it has
length at least 3, otherwise skip it entirely. -/
def insStep (t : TrieNode) (w : List Char) : TrieNode :=
  if 3 ≤ w.length then insertT (w.map up) t else t

theorem buildTrie_eq (dict : List (List Char)) :
    buildTrie dict = dict.foldl insStep (TrieNode.mk false []) := rfl

theorem follow_foldl_some_mono (d : List (List Char)) :
    ∀ (t : TrieNode) (p : List Char), (follow t p).isSome →
      (follow (d.foldl insStep t) p).isSome := by
  induction d with
  | nil => intro t p h; exact h
  | cons v d ih =>
    intro t p h
    rw [List.foldl_cons]
    apply ih
    unfold insStep
    by_cases hv : 3 ≤ v.length
    · rw [if_pos hv]
      rcases Option.isSome_iff_exists.mp h with ⟨m, hm⟩
      obtain ⟨n, hn, _⟩ := follow_insertT_presv (v.map up) t p m hm
      rw [hn]
      rfl
    · rwa [if_neg hv]

theorem follow_foldl_valid_mono (d : List (List Char)) :
    ∀ (t : TrieNode) (p : List Char) (m : TrieNode),
      follow t p = some m →
      ∃ n, follow (d.foldl insStep t) p = some n ∧ n.valid = m.valid := by
  induction d with
  | nil => intro t p m h; exact ⟨m, h, rfl⟩
  | cons v d ih =>
    intro t p m h
    rw [List.foldl_cons]
    unfold insStep
    by_cases hv : 3 ≤ v.length
    · rw [if_pos hv]
      obtain ⟨n, hn, hnv⟩ := follow_insertT_presv (v.map up) t p m h
      obtain ⟨n2, hn2, hn2v⟩ := ih _ p n hn
      exact ⟨n2, hn2, by rw [hn2v, hnv]⟩
    · rw [if_neg hv]
      exact ih t p m h

theorem follow_foldl_some_inv (d : List (List Char)) :
    ∀ (t : TrieNode) (p : List Char),
      (follow (d.foldl insStep t) p).isSome →
      (follow t p).isSome ∨ ∃ v ∈ d, 3 ≤ v.length ∧ p <+: v.map up := by
  induction d with
  | nil => intro t p h; exact Or.inl h
  | cons v d ih =>
    intro t p h
    rw [List.foldl_cons] at h
    rcases ih _ p h with h2 | ⟨v2, hv2, hl, hp⟩
    · unfold insStep at h2
      by_cases hv : 3 ≤ v.length
      · rw [if_pos hv] at h2
        rcases follow_insertT_some_inv (v.map up) t p h2 with h3 | h3
        · exact Or.inl h3
        · exact Or.inr ⟨v, List.mem_cons_self v d, hv, h3⟩
      · rw [if_neg hv] at h2
        exact Or.inl h2
    · exact Or.inr ⟨v2, List.mem_cons_of_mem v hv2, hl, hp⟩

theorem follow_foldl_valid_inv (d : List (List Char)) :
    ∀ (t : TrieNode) (p : List Char) (n : TrieNode),
      follow (d.foldl insStep t) p = some n → n.valid = true →
      (∃ m, follow t p = some m ∧ m.valid = true) ∨
        ∃ v ∈ d, 3 ≤ v.length ∧ p = v.map up := by
  induction d with
  | nil => intro t p n h hv; exact Or.inl ⟨n, h, hv⟩
  | cons v d ih =>
    intro t p n h hv
    rw [List.foldl_cons] at h
    rcases ih _ p n h hv with ⟨m, hm, hmv⟩ | ⟨v2, hv2, hl, hp⟩
    · unfold insStep at hm
      by_cases hvl : 3 ≤ v.length
      · rw [if_pos hvl] at hm
        rcases follow_insertT_valid_src (v.map up) t p m hm hmv with h3 | h3
        · exact Or.inl h3
        · exact Or.inr ⟨v, List.mem_cons_self v d, hvl, h3⟩
      · rw [if_neg hvl] at hm
        exact Or.inl ⟨m, hm, hmv⟩
    · exact Or.inr ⟨v2, List.mem_cons_of_mem v hv2, hl, hp⟩

theorem follow_foldl_mem_pref (d : List (List Char)) :
    ∀ (t : TrieNode) (v p : List Char), v ∈ d → 3 ≤ v.length → p <+: v.map up →
      (follow (d.foldl insStep t) p).isSome := by
  induction d with
  | nil =>
    intro t v p hv
    cases hv
  | cons w d ih =>
    intro t v p hv hl hp
    rw [List.foldl_cons]
    rcases List.mem_cons.mp hv with rfl | hv2
    · apply follow_foldl_some_mono
      unfold insStep
      rw [if_pos hl]
      exact follow_insertT_pref (v.map up) t p hp
    · exact ih _ v p hv2 hl hp

theorem follow_foldl_first_valid (d : List (List Char)) :
    ∀ (t : TrieNode) (p : List Char), follow t p = none →
      (∀ v ∈ d, 3 ≤ v.length → p <+: v.map up → v.map up = p) →
      ∀ n, follow (d.foldl insStep t) p = some n → n.valid = true := by
  induction d with
  | nil =>
    intro t p hn _ n h
    rw [List.foldl_nil] at h
    rw [hn] at h
    cases h
  | cons v d ih =>
    intro t p hn hc n h
    rw [List.foldl_cons] at h
    by_cases hafter : (follow (insStep t v) p).isSome
    · by_cases hvl : 3 ≤ v.length
      · have hstep : insStep t v = insertT (v.map up) t := by
          unfold insStep
          rw [if_pos hvl]
        rw [hstep] at hafter h
        rcases follow_insertT_some_inv (v.map up) t p hafter with h2 | h2
        · rw [hn] at h2
          simp at h2
        · have hep : v.map up = p := hc v (List.mem_cons_self v d) hvl h2
          obtain ⟨n0, hn0, hn0v⟩ := follow_insertT_new_valid (v.map up) t (by rw [hep, hn])
          have hn0b : follow (insertT (v.map up) t) p = some n0 := by
            rw [← hep]
            exact hn0
          obtain ⟨n2, hn2, hn2v⟩ := follow_foldl_valid_mono d _ p n0 hn0b
          have h3 := h.symm.trans hn2
          injection h3 with h4
          rw [h4, hn2v, hn0v]
      · have hstep : insStep t v = t := by
          unfold insStep
          rw [if_neg hvl]
        rw [hstep] at hafter
        rw [hn] at hafter
        simp at hafter
    · have hn2 : follow (insStep t v) p = none := Option.not_isSome_iff_eq_none.mp hafter
      exact ih _ p hn2 (fun v2 hv2 => hc v2 (List.mem_cons_of_mem v hv2)) n h

theorem follow_root0 {p : List Char} {n : TrieNode}
    (h : follow (TrieNode.mk false []) p = some n) : p = [] ∧ n.valid = false := by
  obtain ⟨rfl, rfl⟩ := follow_leaf h
  exact ⟨rfl, rfl⟩

/-- Every valid node of the built trie sits at exactly the uppercasing of
some dictionary word of length at least 3. -/
theorem buildTrie_valid_sound {dict : List (List Char)} {p : List Char} {n : TrieNode}
    (h : follow (buildTrie dict) p = some n) (hv : n.valid = true) :
    ∃ v ∈ dict, 3 ≤ v.length ∧ p = v.map up := by
  rw [buildTrie_eq] at h
  rcases follow_foldl_valid_inv dict _ p n h hv with ⟨m, hm, hmv⟩ | h2
  · obtain ⟨_, hval⟩ := follow_root0 hm
    rw [hval] at hmv
    cases hmv
  · exact h2

/-- Every prefix of an inserted dictionary word is a live path of the built
trie. -/
theorem buildTrie_mem_pref {dict : List (List Char)} {v p : List Char}
    (hv : v ∈ dict) (hl : 3 ≤ v.length) (hp : p <+: v.map up) :
    (follow (buildTrie dict) p).isSome := by
  rw [buildTrie_eq]
  exact follow_foldl_mem_pref dict _ v p hv hl hp

theorem follow_snoc (p : List Char) :
    ∀ (t : TrieNode) (c : Char),
      follow t (p ++ [c]) = (follow t p).bind fun n => lookupC n.children c := by
  induction p with
  | nil =>
    intro t c
    cases h : lookupC t.children c with
    | none => simp [follow, h]
    | some x => simp [follow, h]
  | cons d q ih =>
    intro t c
    cases h : lookupC t.children d with
    | none => rw [List.cons_append, follow_cons_none h, follow_cons_none h]; rfl
    | some x => rw [List.cons_append, follow_cons_some h, follow_cons_some h, ih]

theorem insStep_short {t : TrieNode} {w : List Char} (h : w.length < 3) : insStep t w = t := by
  unfold insStep
  rw [if_neg (by omega)]

theorem insStep_long {t : TrieNode} {w : List Char} (h : 3 ≤ w.length) :
    insStep t w = insertT (w.map up) t := by
  unfold insStep
  rw [if_pos h]

/-- Claim C7: a dictionary entry shorter than 3 characters contributes
nothing at all to the built trie — the trie built with it is structurally
identical to the trie built without it. -/
theorem C7_short_skip (d1 d2 : List (List Char)) (w : List Char) (h : w.length < 3) :
    buildTrie (d1 ++ w :: d2) = buildTrie (d1 ++ d2) := by
  rw [buildTrie_eq, buildTrie_eq, List.foldl_append, List.foldl_append, List.foldl_cons,
    insStep_short h]

theorem C7_short_skip_witness :
    (['a', 'b'] : List Char).length < 3 ∧
      buildTrie ([['C', 'A', 'T']] ++ ['a', 'b'] :: [['D', 'O', 'G']]) =
        buildTrie ([['C', 'A', 'T']] ++ [['D', 'O', 'G']]) :=
  ⟨by decide, C7_short_skip [['C', 'A', 'T']] [['D', 'O', 'G']] ['a', 'b'] (by decide)⟩

/-- Claim C8: listing a word twice in the dictionary yields exactly the same
trie (same nodes, same children lists, same terminal marks) as listing it
once — the second insertion finds every node present and changes nothing. -/
theorem C8_dup_idem (d1 d2 d3 : List (List Char)) (w : List Char) :
    buildTrie (d1 ++ w :: (d2 ++ w :: d3)) = buildTrie (d1 ++ w :: (d2 ++ d3)) := by
  by_cases hw : 3 ≤ w.length
  · rw [buildTrie_eq, buildTrie_eq, List.foldl_append, List.foldl_append, List.foldl_cons,
      List.foldl_cons, List.foldl_append, List.foldl_append, List.foldl_cons]
    have hsome :
        (follow (insStep (List.foldl insStep (TrieNode.mk false []) d1) w) (w.map up)).isSome := by
      rw [insStep_long hw]
      exact follow_insertT_pref (w.map up) _ (w.map up) (List.prefix_refl _)
    have hsome3 :
        (follow (List.foldl insStep
          (insStep (List.foldl insStep (TrieNode.mk false []) d1) w) d2) (w.map up)).isSome :=
      follow_foldl_some_mono d2 _ (w.map up) hsome
    rw [show insStep (List.foldl insStep
          (insStep (List.foldl insStep (TrieNode.mk false []) d1) w) d2) w =
        List.foldl insStep
          (insStep (List.foldl insStep (TrieNode.mk false []) d1) w) d2 from by
      rw [insStep_long hw]
      exact insertT_noop (w.map up) _ hsome3]
  · have h3 : w.length < 3 := by omega
    rw [buildTrie_eq, buildTrie_eq, List.foldl_append, List.foldl_append, List.foldl_cons,
      List.foldl_cons, insStep_short h3, List.foldl_append, List.foldl_append,
      List.foldl_cons, insStep_short h3]

/-- Claim C2 counterexample: the dictionary [CATS, CAT] contains CAT (length
3 ≥ 3) and its strict extension CATS, yet — because the longer word comes
first — the trie node at CAT's final letter is NOT marked terminal: the
source sets `valid` only when it creates a node, and CATS already created
the T node.  This refutes the order-independence asserted by the claim. -/
theorem C2_cex :
    (['C', 'A', 'T'] : List Char) ∈ [['C', 'A', 'T', 'S'], ['C', 'A', 'T']] ∧
    (['C', 'A', 'T'] : List Char).length = 3 ∧
    (['C', 'A', 'T', 'S'] : List Char) ∈ [['C', 'A', 'T', 'S'], ['C', 'A', 'T']] ∧
    (follow (buildTrie [['C', 'A', 'T', 'S'], ['C', 'A', 'T']])
        (['C', 'A', 'T'].map up)).map TrieNode.valid = some false := by
  refine ⟨by decide, by decide, by decide, ?_⟩
  decide

/-- Claim C2 (amended): if the dictionary contains a word `w` of length ≥ 3
and a strict extension `ext` of it, AND no entry occurring before `w` in the
dictionary has the uppercased `w` as a strict prefix, then the node at `w`'s
final letter in the built trie is both marked terminal and holds the child
that continues the longer word.  (The extra order condition is forced by the
counterexample `C2_cex`: when an extension precedes `w`, the terminal mark is
silently lost.) -/
theorem C2_amended (d1 d2 : List (List Char)) (w ext : List Char)
    (hw : 3 ≤ w.length)
    (hext : ext ∈ d1 ++ w :: d2)
    (hpre : w.map up <+: ext.map up)
    (hlt : w.length < ext.length)
    (hnew : ∀ v ∈ d1, 3 ≤ v.length → w.map up <+: v.map up → v.map up = w.map up) :
    ∃ n c rest2, follow (buildTrie (d1 ++ w :: d2)) (w.map up) = some n ∧
      n.valid = true ∧ ext.map up = w.map up ++ c :: rest2 ∧
      (lookupC n.children c).isSome := by
  obtain ⟨tl, htl⟩ := hpre
  have hlen : (w.map up).length < (ext.map up).length := by
    rw [List.length_map, List.length_map]
    exact hlt
  have htlne : tl ≠ [] := by
    intro h0
    rw [h0, List.append_nil] at htl
    rw [htl] at hlen
    omega
  obtain ⟨c, rest2, rfl⟩ : ∃ c rest2, tl = c :: rest2 := by
    cases tl with
    | nil => exact absurd rfl htlne
    | cons c rest2 => exact ⟨c, rest2, rfl⟩
  -- the trie reached after the words before w, then after inserting w
  have hbuild : buildTrie (d1 ++ w :: d2) =
      List.foldl insStep
        (insStep (List.foldl insStep (TrieNode.mk false []) d1) w) d2 := by
    rw [buildTrie_eq, List.foldl_append, List.foldl_cons]
  have hwup_ne : w.map up ≠ [] := by
    cases w with
    | nil => simp at hw
    | cons a as => simp
  -- a terminal node at (w.map up) exists after inserting w, and survives d2
  have hvalid : ∃ n, follow (buildTrie (d1 ++ w :: d2)) (w.map up) = some n ∧
      n.valid = true := by
    rw [hbuild, insStep_long hw]
    cases h1 : follow (List.foldl insStep (TrieNode.mk false []) d1) (w.map up) with
    | none =>
      obtain ⟨n0, hn0, hn0v⟩ := follow_insertT_new_valid (w.map up) _ h1
      obtain ⟨n2, hn2, hn2v⟩ := follow_foldl_valid_mono d2 _ (w.map up) n0 hn0
      exact ⟨n2, hn2, by rw [hn2v, hn0v]⟩
    | some m =>
      have hroot : follow (TrieNode.mk false []) (w.map up) = none := by
        cases hwu : w.map up with
        | nil => exact absurd hwu hwup_ne
        | cons a as =>
          have hnone : lookupC (TrieNode.mk false []).children a = none := rfl
          exact follow_cons_none hnone as
      have hmv : m.valid = true :=
        follow_foldl_first_valid d1 _ (w.map up) hroot hnew m h1
      obtain ⟨n1, hn1, hn1v⟩ := follow_insertT_presv (w.map up) _ (w.map up) m h1
      obtain ⟨n2, hn2, hn2v⟩ := follow_foldl_valid_mono d2 _ (w.map up) n1 hn1
      exact ⟨n2, hn2, by rw [hn2v, hn1v, hmv]⟩
  obtain ⟨n, hn, hnv⟩ := hvalid
  -- the child continuing ext exists: (w.map up) ++ [c] is a prefix of ext.map up
  have hchild : (follow (buildTrie (d1 ++ w :: d2)) (w.map up ++ [c])).isSome := by
    apply buildTrie_mem_pref hext (by omega)
    exact ⟨rest2, by rw [List.append_assoc, List.singleton_append, htl]⟩
  rw [follow_snoc, hn] at hchild
  exact ⟨n, c, rest2, hn, hnv, htl.symm, hchild⟩

theorem C2_amended_witness :
    (3 ≤ (['C', 'A', 'T'] : List Char).length) ∧
    (∃ n c rest2,
      follow (buildTrie ([] ++ ['C', 'A', 'T'] :: [['C', 'A', 'T', 'S']]))
          (['C', 'A', 'T'].map up) = some n ∧
        n.valid = true ∧
        ['C', 'A', 'T', 'S'].map up = ['C', 'A', 'T'].map up ++ c :: rest2 ∧
        (lookupC n.children c).isSome) :=
  ⟨by decide,
    C2_amended [] [['C', 'A', 'T', 'S']] ['C', 'A', 'T'] ['C', 'A', 'T', 'S']
      (by decide) (by decide) ⟨['S'], by decide⟩ (by decide)
      (fun v hv => absurd hv (List.not_mem_nil v))⟩

/-! ### Board and DFS basic lemmas -/

theorem updB_self (b : Board) (r c : Fin 4) (v : Char) : updB b r c v r c = v := by
  unfold updB
  rw [if_pos ⟨rfl, rfl⟩]

theorem updB_ne {q : Cell} {r c : Fin 4} (h : ¬(q.1 = r ∧ q.2 = c)) (b : Board) (v : Char) :
    updB b r c v q.1 q.2 = b q.1 q.2 := by
  unfold updB
  rw [if_neg h]

theorem cell_ne_iff {q : Cell} {r c : Fin 4} : q ≠ (r, c) ↔ ¬(q.1 = r ∧ q.2 = c) := by
  rw [Ne, Prod.ext_iff]

@[simp] theorem restore_board (r c : Fin 4) (l : Char) (s : SearchState) :
    (restore r c l s).board = updB s.board r c l := rfl

@[simp] theorem restore_words (r c : Fin 4) (l : Char) (s : SearchState) :
    (restore r c l s).validWords = s.validWords := rfl

theorem dfs_star (fuel : Nat) {st : SearchState} {r c : Fin 4} (h : st.board r c = '*')
    (t : TrieNode) (w : List Char) : dfs fuel r c t w st = st := by
  cases fuel with
  | zero => rfl
  | succ n =>
    simp only [dfs]
    rw [if_pos h]

theorem dfs_succ_none {st : SearchState} {r c : Fin 4} {t : TrieNode}
    (h1 : ¬st.board r c = '*') (h2 : lookupC t.children (up (st.board r c)) = none)
    (fuel : Nat) (w : List Char) :
    dfs (fuel + 1) r c t w st =
      restore r c (up (st.board r c))
        { board := updB st.board r c '*', validWords := st.validWords } := by
  simp only [dfs]
  rw [if_neg h1, h2]

theorem dfs_succ_some {st : SearchState} {r c : Fin 4} {t child : TrieNode}
    (h1 : ¬st.board r c = '*') (h2 : lookupC t.children (up (st.board r c)) = some child)
    (fuel : Nat) (w : List Char) :
    dfs (fuel + 1) r c t w st =
      restore r c (up (st.board r c))
        ((getAdjCells r c).foldl
          (fun s cell => dfs fuel cell.1 cell.2 child (w ++ [up (st.board r c)]) s)
          { board := updB st.board r c '*'
            validWords :=
              if child.valid = true ∧ 3 ≤ (w ++ [up (st.board r c)]).length then
                insert (w ++ [up (st.board r c)]) st.validWords
              else st.validWords }) := by
  simp only [dfs]
  rw [if_neg h1, h2]

/-- Everything `getAdjCells` yields is 8-directionally adjacent to the input
cell (checked over all 16 input cells). -/
theorem mem_getAdjCells_adj8 : ∀ (r c : Fin 4) (q : Cell), q ∈ getAdjCells r c → adj8 (r, c) q := by
  decide

theorem mem_allCells : ∀ q : Cell, q ∈ allCells := by decide

/-- The board after a computation differs from the board before it only by
uppercasing individual cells. -/
def UpperOf (b0 b : Board) : Prop :=
  ∀ q : Cell, b q.1 q.2 = b0 q.1 q.2 ∨ b q.1 q.2 = up (b0 q.1 q.2)

theorem upperOf_refl (b : Board) : UpperOf b b := fun _ => Or.inl rfl

@[simp] theorem state_board_mk (b : Board) (v : Finset (List Char)) :
    (SearchState.mk b v).board = b := rfl

@[simp] theorem state_words_mk (b : Board) (v : Finset (List Char)) :
    (SearchState.mk b v).validWords = v := rfl

theorem updB_updB (b : Board) (r c : Fin 4) (v1 v2 : Char) :
    updB (updB b r c v1) r c v2 = updB b r c v2 := by
  funext r2 c2
  unfold updB
  by_cases h : r2 = r ∧ c2 = c
  · rw [if_pos h, if_pos h]
  · rw [if_neg h, if_neg h, if_neg h]

theorem updB_at {q : Cell} {r c : Fin 4} (h : q.1 = r ∧ q.2 = c) (b : Board) (v : Char) :
    updB b r c v q.1 q.2 = v := by
  unfold updB
  rw [if_pos h]

theorem UpperOf.trans {a b c : Board} (h1 : UpperOf a b) (h2 : UpperOf b c) : UpperOf a c := by
  intro q
  rcases h2 q with h3 | h3 <;> rcases h1 q with h4 | h4
  · left; rw [h3, h4]
  · right; rw [h3, h4]
  · right; rw [h3, h4]
  · right; rw [h3, h4, up_idem]

theorem UpperOf.star_iff {b0 b : Board} (h : UpperOf b0 b) (q : Cell) :
    b q.1 q.2 = '*' ↔ b0 q.1 q.2 = '*' := by
  rcases h q with h1 | h1
  · rw [h1]
  · rw [h1, up_star_iff]

theorem foldl_dfs_upper (fuel : Nat) (t : TrieNode) (w : List Char)
    (H : ∀ (r c : Fin 4) (st : SearchState), UpperOf st.board (dfs fuel r c t w st).board) :
    ∀ (L : List Cell) (s : SearchState),
      UpperOf s.board ((L.foldl (fun s2 cell => dfs fuel cell.1 cell.2 t w s2) s)).board := by
  intro L
  induction L with
  | nil => intro s; exact upperOf_refl _
  | cons x L ihL =>
    intro s
    rw [List.foldl_cons]
    exact UpperOf.trans (H x.1 x.2 s) (ihL _)

/-- A DFS call changes each board cell at most by uppercasing it. -/
theorem dfs_board_upper (fuel : Nat) :
    ∀ (r c : Fin 4) (t : TrieNode) (w : List Char) (st : SearchState),
      UpperOf st.board (dfs fuel r c t w st).board := by
  induction fuel with
  | zero => intro r c t w st; exact upperOf_refl _
  | succ fuel ih =>
    intro r c t w st
    by_cases hstar : st.board r c = '*'
    · rw [dfs_star _ hstar]
      exact upperOf_refl _
    · cases hlk : lookupC t.children (up (st.board r c)) with
      | none =>
        rw [dfs_succ_none hstar hlk]
        intro q
        rw [restore_board]
        simp only [state_board_mk]
        rw [updB_updB]
        by_cases hq : q.1 = r ∧ q.2 = c
        · right
          rw [updB_at hq, hq.1, hq.2]
        · rw [updB_ne hq]
          exact Or.inl rfl
      | some child =>
        rw [dfs_succ_some hstar hlk]
        have hfold := foldl_dfs_upper fuel child (w ++ [up (st.board r c)])
          (fun r2 c2 st2 => ih r2 c2 child (w ++ [up (st.board r c)]) st2)
          (getAdjCells r c)
          { board := updB st.board r c '*'
            validWords :=
              if child.valid = true ∧ 3 ≤ (w ++ [up (st.board r c)]).length then
                insert (w ++ [up (st.board r c)]) st.validWords
              else st.validWords }
        simp only [state_board_mk] at hfold
        intro q
        rw [restore_board]
        by_cases hq : q.1 = r ∧ q.2 = c
        · right
          rw [updB_at hq, hq.1, hq.2]
        · rw [updB_ne hq]
          rcases hfold q with h1 | h1 <;> rw [h1]
          · rw [updB_ne hq]
            exact Or.inl rfl
          · rw [updB_ne hq]
            right
            rfl

theorem nonStar_le_16 (b : Board) : nonStar b ≤ 16 := by
  unfold nonStar
  have h := Finset.card_filter_le (Finset.univ : Finset Cell) fun q : Cell => b q.1 q.2 ≠ '*'
  have h2 : (Finset.univ : Finset Cell).card = 16 := by decide
  omega

theorem nonStar_eq_of_upper {b0 b : Board} (h : UpperOf b0 b) : nonStar b = nonStar b0 := by
  unfold nonStar
  congr 1
  ext q
  simp only [Finset.mem_filter, Finset.mem_univ, true_and]
  exact not_congr (h.star_iff q)

theorem nonStar_updB_lt {b : Board} {r c : Fin 4} (h : ¬b r c = '*') :
    nonStar (updB b r c '*') < nonStar b := by
  unfold nonStar
  have hsub : (Finset.univ.filter fun q : Cell => updB b r c '*' q.1 q.2 ≠ '*') ⊆
      (Finset.univ.filter fun q : Cell => b q.1 q.2 ≠ '*') := by
    intro q hq
    simp only [Finset.mem_filter, Finset.mem_univ, true_and] at hq ⊢
    by_cases hqc : q.1 = r ∧ q.2 = c
    · rw [updB_at hqc] at hq
      exact absurd rfl hq
    · rwa [updB_ne hqc] at hq
  apply Finset.card_lt_card
  rw [Finset.ssubset_iff_of_subset hsub]
  refine ⟨(r, c), ?_, ?_⟩
  · simp only [Finset.mem_filter, Finset.mem_univ, true_and]
    exact h
  · simp [updB_self]

/-- Any two fuels strictly above the number of non-sentinel cells of the
current board give the same DFS result: the recursion bottoms out before the
fuel does. -/
theorem dfs_fuel_mono :
    ∀ (f1 f2 : Nat) (r c : Fin 4) (t : TrieNode) (w : List Char) (st : SearchState),
      nonStar st.board < f1 → nonStar st.board < f2 →
      dfs f1 r c t w st = dfs f2 r c t w st := by
  intro f1
  induction f1 with
  | zero => intro f2 r c t w st h1 h2; omega
  | succ f1 ih =>
    intro f2 r c t w st h1 h2
    cases f2 with
    | zero => omega
    | succ f2 =>
      by_cases hstar : st.board r c = '*'
      · rw [dfs_star _ hstar, dfs_star _ hstar]
      · cases hlk : lookupC t.children (up (st.board r c)) with
        | none => rw [dfs_succ_none hstar hlk, dfs_succ_none hstar hlk]
        | some child =>
          rw [dfs_succ_some hstar hlk, dfs_succ_some hstar hlk]
          have hdec := nonStar_updB_lt hstar
          have hfold : ∀ (L : List Cell) (s : SearchState),
              nonStar s.board < f1 → nonStar s.board < f2 →
              L.foldl (fun s2 cell =>
                dfs f1 cell.1 cell.2 child (w ++ [up (st.board r c)]) s2) s =
              L.foldl (fun s2 cell =>
                dfs f2 cell.1 cell.2 child (w ++ [up (st.board r c)]) s2) s := by
            intro L
            induction L with
            | nil => intro s _ _; rfl
            | cons x L ihL =>
              intro s hs1 hs2
              rw [List.foldl_cons, List.foldl_cons,
                ih f2 x.1 x.2 child (w ++ [up (st.board r c)]) s hs1 hs2]
              have heq : nonStar (dfs f2 x.1 x.2 child (w ++ [up (st.board r c)]) s).board =
                  nonStar s.board :=
                nonStar_eq_of_upper (dfs_board_upper f2 x.1 x.2 child _ s)
              exact ihL _ (by omega) (by omega)
          rw [hfold (getAdjCells r c) _ (by simp only [state_board_mk]; omega)
            (by simp only [state_board_mk]; omega)]

/-- Claim C6: for every board state, trie node, starting cell and
accumulated word, the DFS terminates with recursion depth bounded by the
cell count of the grid: the result is already fixed at fuel 17 (one unit
per recursion level on top of at most 16 markable cells), and every larger
fuel computes the same state. -/
theorem C6_depth (r c : Fin 4) (t : TrieNode) (w : List Char) (st : SearchState)
    (f1 f2 : Nat) (h1 : 16 < f1) (h2 : 16 < f2) :
    dfs f1 r c t w st = dfs f2 r c t w st := by
  have hn : nonStar st.board ≤ 16 := nonStar_le_16 st.board
  exact dfs_fuel_mono f1 f2 r c t w st (by omega) (by omega)

theorem C6_depth_witness :
    16 < 17 ∧ 16 < 100 ∧
      dfs 17 0 0 (buildTrie [['C', 'A', 'T']]) [] ⟨fun _ _ => 'C', ∅⟩ =
        dfs 100 0 0 (buildTrie [['C', 'A', 'T']]) [] ⟨fun _ _ => 'C', ∅⟩ :=
  ⟨by decide, by decide,
    C6_depth 0 0 (buildTrie [['C', 'A', 'T']]) [] ⟨fun _ _ => 'C', ∅⟩ 17 100
      (by decide) (by decide)⟩

/-! ### DFS soundness -/

theorem nodup_append_singleton {p : List Cell} {x : Cell} (hnd : p.Nodup) (hx : x ∉ p) :
    (p ++ [x]).Nodup := by
  rw [List.nodup_append]
  refine ⟨hnd, List.nodup_singleton x, ?_⟩
  intro a ha hax
  rw [List.mem_singleton] at hax
  subst hax
  exact hx ha

theorem chain_append_singleton {p : List Cell} {x : Cell} (hch : p.Chain' adj8)
    (hlast : ∀ h : p ≠ [], adj8 (p.getLast h) x) : (p ++ [x]).Chain' adj8 := by
  rw [List.chain'_append]
  refine ⟨hch, List.chain'_singleton x, ?_⟩
  intro a ha y hy
  cases p with
  | nil => simp at ha
  | cons b bs =>
    have hne : (b :: bs : List Cell) ≠ [] := by simp
    rw [List.getLast?_eq_getLast _ hne, Option.mem_def] at ha
    injection ha with ha2
    simp only [List.head?_cons, Option.mem_def] at hy
    injection hy with hy2
    rw [← ha2, ← hy2]
    exact hlast hne

theorem getLast_append_singleton {p : List Cell} {x : Cell} (h : (p ++ [x]) ≠ []) :
    (p ++ [x]).getLast h = x :=
  List.getLast_concat p

/-- Master invariant of `DFS`: if the trie node `t` is reached from `root`
along the accumulated word `w`, which is spelled by the current active path
`p` (marked on the board), then the DFS preserves the board/path relation
and only ever adds sound words — words of length ≥ 3 reaching a valid trie
node and traceable on the original board. -/
theorem dfs_master (b0 : Board) (root : TrieNode) :
    ∀ (fuel : Nat) (r c : Fin 4) (t : TrieNode) (w : List Char) (st : SearchState)
      (p : List Cell),
      pathInv b0 p st.board →
      p.Nodup →
      p.Chain' adj8 →
      w = p.map (fun q => up (b0 q.1 q.2)) →
      (∀ q ∈ p, b0 q.1 q.2 ≠ '*') →
      follow root w = some t →
      (∀ h : p ≠ [], adj8 (p.getLast h) (r, c)) →
      pathInv b0 p (dfs fuel r c t w st).board ∧
        ∀ u ∈ (dfs fuel r c t w st).validWords,
          u ∈ st.validWords ∨ SoundWord b0 root u := by
  intro fuel
  induction fuel with
  | zero =>
    intro r c t w st p hInv _ _ _ _ _ _
    exact ⟨hInv, fun u hu => Or.inl hu⟩
  | succ fuel ih =>
    intro r c t w st p hInv hnd hch hw hsf hfol hadj
    by_cases hstar : st.board r c = '*'
    · rw [dfs_star _ hstar]
      exact ⟨hInv, fun u hu => Or.inl hu⟩
    · have hrc_notin : ((r, c) : Cell) ∉ p := fun hmem => hstar (hInv.1 (r, c) hmem)
      obtain ⟨hup_eq, hstar_iff⟩ := hInv.2 (r, c) hrc_notin
      have hb0rc : b0 r c ≠ '*' := fun h => hstar (hstar_iff.mpr h)
      have hletter : up (st.board r c) = up (b0 r c) := hup_eq
      have hletter_ne : up (st.board r c) ≠ '*' := up_ne_star hstar
      cases hlk : lookupC t.children (up (st.board r c)) with
      | none =>
        rw [dfs_succ_none hstar hlk]
        constructor
        · rw [restore_board]
          simp only [state_board_mk]
          rw [updB_updB]
          constructor
          · intro q hq
            have hqne : ¬(q.1 = r ∧ q.2 = c) :=
              cell_ne_iff.mp (fun h => hrc_notin (h ▸ hq))
            rw [updB_ne hqne]
            exact hInv.1 q hq
          · intro q hq
            by_cases hqc : q.1 = r ∧ q.2 = c
            · rw [updB_at hqc, hqc.1, hqc.2]
              exact ⟨by rw [up_idem, hletter], iff_of_false hletter_ne hb0rc⟩
            · rw [updB_ne hqc]
              exact hInv.2 q hq
        · intro u hu
          simp only [restore_words, state_words_mk] at hu
          exact Or.inl hu
      | some child =>
        rw [dfs_succ_some hstar hlk]
        have hp2nodup : (p ++ [((r, c) : Cell)]).Nodup := nodup_append_singleton hnd hrc_notin
        have hp2chain : (p ++ [((r, c) : Cell)]).Chain' adj8 := chain_append_singleton hch hadj
        have hw2 : w ++ [up (st.board r c)] =
            (p ++ [((r, c) : Cell)]).map (fun q => up (b0 q.1 q.2)) := by
          rw [List.map_append, ← hw, hletter]
          rfl
        have hsf2 : ∀ q ∈ p ++ [((r, c) : Cell)], b0 q.1 q.2 ≠ '*' := by
          intro q hq
          rcases List.mem_append.mp hq with h1 | h1
          · exact hsf q h1
          · rw [List.mem_singleton] at h1
            subst h1
            exact hb0rc
        have hfollow2 : follow root (w ++ [up (st.board r c)]) = some child := by
          rw [follow_snoc, hfol]
          exact hlk
        have hlen2 : (w ++ [up (st.board r c)]).length = (p ++ [((r, c) : Cell)]).length := by
          rw [hw2, List.length_map]
        -- the initial state of the neighbour fold
        have hInv1 : pathInv b0 (p ++ [((r, c) : Cell)]) (updB st.board r c '*') := by
          constructor
          · intro q hq
            rcases List.mem_append.mp hq with h1 | h1
            · have hqne : ¬(q.1 = r ∧ q.2 = c) :=
                cell_ne_iff.mp (fun h => hrc_notin (h ▸ h1))
              rw [updB_ne hqne]
              exact hInv.1 q h1
            · rw [List.mem_singleton] at h1
              subst h1
              exact updB_at ⟨rfl, rfl⟩ st.board '*'
          · intro q hq
            have hq1 : q ∉ p := fun h => hq (List.mem_append_left _ h)
            have hq2 : ¬(q.1 = r ∧ q.2 = c) := by
              intro h
              apply hq
              apply List.mem_append_right
              rw [List.mem_singleton]
              exact Prod.ext_iff.mpr ⟨h.1, h.2⟩
            rw [updB_ne hq2]
            exact hInv.2 q hq1
        have hwords1 :
            ∀ u ∈ (if child.valid = true ∧ 3 ≤ (w ++ [up (st.board r c)]).length then
                insert (w ++ [up (st.board r c)]) st.validWords
              else st.validWords),
              u ∈ st.validWords ∨ SoundWord b0 root u := by
          intro u hu
          by_cases hcond : child.valid = true ∧ 3 ≤ (w ++ [up (st.board r c)]).length
          · rw [if_pos hcond] at hu
            rcases Finset.mem_insert.mp hu with rfl | h1
            · refine Or.inr ⟨hcond.2, ⟨child, hfollow2, hcond.1⟩,
                ⟨p ++ [((r, c) : Cell)], hp2nodup, hp2chain, hw2, hsf2⟩⟩
            · exact Or.inl h1
          · rw [if_neg hcond] at hu
            exact Or.inl hu
        have hfold : ∀ (L : List Cell), (∀ x ∈ L, adj8 ((r, c) : Cell) x) →
            ∀ s : SearchState, pathInv b0 (p ++ [((r, c) : Cell)]) s.board →
            (∀ u ∈ s.validWords, u ∈ st.validWords ∨ SoundWord b0 root u) →
            pathInv b0 (p ++ [((r, c) : Cell)])
              ((L.foldl (fun s2 cell =>
                dfs fuel cell.1 cell.2 child (w ++ [up (st.board r c)]) s2) s)).board ∧
            ∀ u ∈ (L.foldl (fun s2 cell =>
                dfs fuel cell.1 cell.2 child (w ++ [up (st.board r c)]) s2) s).validWords,
              u ∈ st.validWords ∨ SoundWord b0 root u := by
          intro L
          induction L with
          | nil =>
            intro _ s h1 h2
            exact ⟨h1, h2⟩
          | cons x L ihL =>
            intro hLadj s h1 h2
            rw [List.foldl_cons]
            have hstep := ih x.1 x.2 child (w ++ [up (st.board r c)]) s
              (p ++ [((r, c) : Cell)]) h1 hp2nodup hp2chain hw2 hsf2 hfollow2
              (fun hne => by
                rw [getLast_append_singleton hne]
                exact hLadj x (List.mem_cons_self x L))
            refine ihL (fun y hy => hLadj y (List.mem_cons_of_mem x hy)) _ hstep.1 ?_
            intro u hu
            rcases hstep.2 u hu with h3 | h3
            · exact h2 u h3
            · exact Or.inr h3
        have hres := hfold (getAdjCells r c)
          (fun x hx => mem_getAdjCells_adj8 r c x hx)
          { board := updB st.board r c '*'
            validWords :=
              if child.valid = true ∧ 3 ≤ (w ++ [up (st.board r c)]).length then
                insert (w ++ [up (st.board r c)]) st.validWords
              else st.validWords }
          (by simpa only [state_board_mk] using hInv1)
          (by simpa only [state_words_mk] using hwords1)
        constructor
        · rw [restore_board]
          constructor
          · intro q hq
            have hqne : ¬(q.1 = r ∧ q.2 = c) :=
              cell_ne_iff.mp (fun h => hrc_notin (h ▸ hq))
            rw [updB_ne hqne]
            exact hres.1.1 q (List.mem_append_left _ hq)
          · intro q hq
            by_cases hqc : q.1 = r ∧ q.2 = c
            · rw [updB_at hqc, hqc.1, hqc.2]
              exact ⟨by rw [up_idem, hletter], iff_of_false hletter_ne hb0rc⟩
            · rw [updB_ne hqc]
              refine hres.1.2 q ?_
              intro hmem
              rcases List.mem_append.mp hmem with h1 | h1
              · exact hq h1
              · rw [List.mem_singleton] at h1
                exact hqc (by rw [h1]; exact ⟨rfl, rfl⟩)
          -- the q ∈ p ++ [(r,c)] second case gives q = (r,c), contradicting hqc
        · intro u hu
          simp only [restore_words] at hu
          exact hres.2 u hu

/-- The full search run: board cells keep their uppercase image and sentinel
pattern, and every word in the final result set is sound. -/
theorem runSearch_master (b0 : Board) (dict : List (List Char)) :
    pathInv b0 [] (runSearch b0 dict).board ∧
      ∀ u ∈ (runSearch b0 dict).validWords, SoundWord b0 (buildTrie dict) u := by
  unfold runSearch findValidWords
  have hfold : ∀ (L : List Cell) (s : SearchState),
      pathInv b0 [] s.board →
      (∀ u ∈ s.validWords, SoundWord b0 (buildTrie dict) u) →
      pathInv b0 []
        ((L.foldl (fun s2 cell => dfs 17 cell.1 cell.2 (buildTrie dict) [] s2) s)).board ∧
      ∀ u ∈ (L.foldl (fun s2 cell => dfs 17 cell.1 cell.2 (buildTrie dict) [] s2) s).validWords,
        SoundWord b0 (buildTrie dict) u := by
    intro L
    induction L with
    | nil =>
      intro s h1 h2
      exact ⟨h1, h2⟩
    | cons x L ihL =>
      intro s h1 h2
      rw [List.foldl_cons]
      have hstep := dfs_master b0 (buildTrie dict) 17 x.1 x.2 (buildTrie dict) [] s [] h1
        List.nodup_nil List.chain'_nil rfl (fun q hq => absurd hq (List.not_mem_nil q))
        (follow_nil _) (fun hne => absurd rfl hne)
      refine ihL _ hstep.1 ?_
      intro u hu
      rcases hstep.2 u hu with h3 | h3
      · exact h2 u h3
      · exact h3
  apply hfold
  · exact ⟨fun q hq => absurd hq (List.not_mem_nil q), fun q _ => ⟨rfl, Iff.rfl⟩⟩
  · intro u hu
    exact absurd hu (Finset.not_mem_empty u)


set_option maxRecDepth 16000
set_option linter.constructorNameAsVariable false

/-- Claim C1: soundness of the result set.  Every word returned by
`generateValidWords` on a genuine 4x4 board has length at least 3, is the
uppercasing of a dictionary word whose final trie node is terminal, and is
traceable on the board as a simple path of 8-directionally adjacent cells
whose uppercased letters spell the word. -/
theorem C1_soundness (board : List (List Char)) (dict : List (List Char))
    (ws : Finset (List Char)) (u : List Char)
    (hshape : board.length = 4 ∧ ∀ row ∈ board, row.length = 4)
    (hok : generateValidWords board dict = GVWResult.ok ws)
    (hu : u ∈ ws) :
    3 ≤ u.length ∧
      (∃ d ∈ dict, 3 ≤ d.length ∧ d.map up = u) ∧
      (∃ n, follow (buildTrie dict) u = some n ∧ n.valid = true) ∧
      (∃ p, SpellsPath (toBoard board) u p) := by
  have hcond : ¬(board.length ≠ 4 ∨ (board.headD []).length ≠ 4) := by
    push_neg
    refine ⟨hshape.1, ?_⟩
    cases board with
    | nil => exact absurd hshape.1 (by decide)
    | cons b rest => exact hshape.2 b (List.mem_cons_self b rest)
  unfold generateValidWords at hok
  rw [if_neg hcond] at hok
  injection hok with hok2
  subst hok2
  unfold getValidWords at hu
  have hmaster := (runSearch_master (toBoard board) dict).2
  revert hu
  revert hmaster
  generalize runSearch (toBoard board) dict = s
  intro hmaster hu
  obtain ⟨hlen, ⟨n, hn, hnv⟩, ⟨p, hp⟩⟩ := hmaster u hu
  obtain ⟨d, hd, hdl, hdu⟩ := buildTrie_valid_sound hn hnv
  exact ⟨hlen, ⟨d, hd, hdl, hdu.symm⟩, ⟨n, hn, hnv⟩, ⟨p, hp⟩⟩

theorem C1_soundness_witness :
    (([['C', 'A', 'T', 'S'], ['X', 'X', 'X', 'X'], ['D', 'O', 'G', 'X'],
        ['X', 'X', 'X', 'X']] : List (List Char)).length = 4 ∧
      ∀ row ∈ ([['C', 'A', 'T', 'S'], ['X', 'X', 'X', 'X'], ['D', 'O', 'G', 'X'],
        ['X', 'X', 'X', 'X']] : List (List Char)), row.length = 4) ∧
    generateValidWords
        [['C', 'A', 'T', 'S'], ['X', 'X', 'X', 'X'], ['D', 'O', 'G', 'X'], ['X', 'X', 'X', 'X']]
        [['C', 'A', 'T']] =
      GVWResult.ok (getValidWords
        (toBoard [['C', 'A', 'T', 'S'], ['X', 'X', 'X', 'X'], ['D', 'O', 'G', 'X'],
          ['X', 'X', 'X', 'X']]) [['C', 'A', 'T']]) ∧
    ['C', 'A', 'T'] ∈ getValidWords
        (toBoard [['C', 'A', 'T', 'S'], ['X', 'X', 'X', 'X'], ['D', 'O', 'G', 'X'],
          ['X', 'X', 'X', 'X']]) [['C', 'A', 'T']] ∧
    (3 ≤ (['C', 'A', 'T'] : List Char).length ∧
      (∃ d ∈ [['C', 'A', 'T']], 3 ≤ d.length ∧ d.map up = ['C', 'A', 'T']) ∧
      (∃ n, follow (buildTrie [['C', 'A', 'T']]) ['C', 'A', 'T'] = some n ∧ n.valid = true) ∧
      (∃ p, SpellsPath
        (toBoard [['C', 'A', 'T', 'S'], ['X', 'X', 'X', 'X'], ['D', 'O', 'G', 'X'],
          ['X', 'X', 'X', 'X']]) ['C', 'A', 'T'] p)) :=
  ⟨⟨by decide, by decide⟩, rfl, by decide,
    C1_soundness
      [['C', 'A', 'T', 'S'], ['X', 'X', 'X', 'X'], ['D', 'O', 'G', 'X'], ['X', 'X', 'X', 'X']]
      [['C', 'A', 'T']] _ ['C', 'A', 'T'] ⟨by decide, by decide⟩ rfl (by decide)⟩

/-- Claim C9: every word in the set returned by `getValidWords` has length
at most 16, the cell count of the grid, because a word's path never reuses
a cell. -/
theorem C9_len_bound (b : Board) (dict : List (List Char)) (u : List Char)
    (hu : u ∈ getValidWords b dict) : u.length ≤ 16 := by
  unfold getValidWords at hu
  have hmaster := (runSearch_master b dict).2
  revert hu
  revert hmaster
  generalize runSearch b dict = s
  intro hmaster hu
  obtain ⟨_, _, ⟨p, hnd, _, hmap, _⟩⟩ := hmaster u hu
  rw [hmap, List.length_map]
  have h1 := hnd.length_le_card
  have hcard : Fintype.card Cell = 16 := by simp
  omega

theorem C9_len_bound_witness :
    ['C', 'A', 'T'] ∈ getValidWords
        (toBoard [['C', 'A', 'T', 'S'], ['X', 'X', 'X', 'X'], ['D', 'O', 'G', 'X'],
          ['X', 'X', 'X', 'X']]) [['C', 'A', 'T']] ∧
      (['C', 'A', 'T'] : List Char).length ≤ 16 :=
  ⟨by decide,
    C9_len_bound
      (toBoard [['C', 'A', 'T', 'S'], ['X', 'X', 'X', 'X'], ['D', 'O', 'G', 'X'],
        ['X', 'X', 'X', 'X']]) [['C', 'A', 'T']] ['C', 'A', 'T'] (by decide)⟩

/-- Claim C10: a board cell holding the sentinel character is treated as
permanently visited — a DFS starting at (or reaching) it returns the state
unchanged — and consequently no word of the returned set has a path through
a cell whose original content is the sentinel. -/
theorem C10_star :
    (∀ (fuel : Nat) (r c : Fin 4) (t : TrieNode) (w : List Char) (st : SearchState),
        st.board r c = '*' → dfs fuel r c t w st = st) ∧
      ∀ (b : Board) (dict : List (List Char)) (u : List Char),
        u ∈ getValidWords b dict →
          ∃ p, SpellsPath b u p ∧ ∀ q ∈ p, b q.1 q.2 ≠ '*' := by
  constructor
  · intro fuel r c t w st h
    exact dfs_star fuel h t w
  · intro b dict u hu
    unfold getValidWords at hu
    have hmaster := (runSearch_master b dict).2
    revert hu
    revert hmaster
    generalize runSearch b dict = s
    intro hmaster hu
    obtain ⟨_, _, ⟨p, hp⟩⟩ := hmaster u hu
    exact ⟨p, hp, hp.2.2.2⟩

theorem C10_star_witness :
    (SearchState.mk (fun _ _ => '*') ∅).board 0 0 = '*' ∧
    dfs 17 0 0 (buildTrie [['C', 'A', 'T']]) [] (SearchState.mk (fun _ _ => '*') ∅) =
      SearchState.mk (fun _ _ => '*') ∅ ∧
    ['C', 'A', 'T'] ∈ getValidWords
        (toBoard [['C', 'A', 'T', 'S'], ['X', 'X', 'X', 'X'], ['D', 'O', 'G', 'X'],
          ['X', 'X', 'X', 'X']]) [['C', 'A', 'T']] ∧
    (∃ p, SpellsPath
        (toBoard [['C', 'A', 'T', 'S'], ['X', 'X', 'X', 'X'], ['D', 'O', 'G', 'X'],
          ['X', 'X', 'X', 'X']]) ['C', 'A', 'T'] p ∧
      ∀ q ∈ p, toBoard [['C', 'A', 'T', 'S'], ['X', 'X', 'X', 'X'], ['D', 'O', 'G', 'X'],
          ['X', 'X', 'X', 'X']] q.1 q.2 ≠ '*') :=
  ⟨rfl,
    C10_star.1 17 0 0 (buildTrie [['C', 'A', 'T']]) [] (SearchState.mk (fun _ _ => '*') ∅) rfl,
    by decide,
    C10_star.2
      (toBoard [['C', 'A', 'T', 'S'], ['X', 'X', 'X', 'X'], ['D', 'O', 'G', 'X'],
        ['X', 'X', 'X', 'X']]) [['C', 'A', 'T']] ['C', 'A', 'T'] (by decide)⟩

/-! ### Exact final board state (restoration up to uppercasing) -/

theorem up_star : up '*' = '*' := by decide

theorem dfs17_board_self (r c : Fin 4) (t : TrieNode) (w : List Char) (st : SearchState)
    (hstar : ¬st.board r c = '*') :
    (dfs 17 r c t w st).board r c = up (st.board r c) := by
  cases hlk : lookupC t.children (up (st.board r c)) with
  | none =>
    rw [show (17 : Nat) = 16 + 1 from rfl, dfs_succ_none hstar hlk, restore_board, updB_self]
  | some child =>
    rw [show (17 : Nat) = 16 + 1 from rfl, dfs_succ_some hstar hlk, restore_board, updB_self]

/-- After a full run, every cell holds exactly the uppercased version of its
original content: marked cells are always restored, every cell is visited at
top level and rewritten with its uppercased letter, and sentinel cells are
never touched. -/
theorem runSearch_board_eq (b0 : Board) (dict : List (List Char)) :
    ∀ q : Cell, (runSearch b0 dict).board q.1 q.2 = up (b0 q.1 q.2) := by
  unfold runSearch findValidWords
  have key : ∀ (L : List Cell) (s : SearchState),
      UpperOf b0 s.board →
      (∀ q : Cell, q ∉ L → s.board q.1 q.2 = up (b0 q.1 q.2)) →
      ∀ q : Cell,
        ((L.foldl (fun s2 cell => dfs 17 cell.1 cell.2 (buildTrie dict) [] s2) s)).board q.1 q.2 =
          up (b0 q.1 q.2) := by
    intro L
    induction L with
    | nil =>
      intro s _ hall q
      exact hall q (List.not_mem_nil q)
    | cons x L ihL =>
      intro s hup hall
      rw [List.foldl_cons]
      apply ihL
      · exact UpperOf.trans hup (dfs_board_upper 17 x.1 x.2 (buildTrie dict) [] s)
      · intro q hq
        by_cases hqx : q = x
        · subst hqx
          by_cases hstar : s.board q.1 q.2 = '*'
          · have hb0 : b0 q.1 q.2 = '*' := (hup.star_iff q).mp hstar
            rw [dfs_star 17 hstar, hstar, hb0, up_star]
          · rw [dfs17_board_self q.1 q.2 (buildTrie dict) [] s hstar]
            rcases hup q with h1 | h1
            · rw [h1]
            · rw [h1, up_idem]
        · have hq2 : q ∉ x :: L := by
            intro hmem
            rcases List.mem_cons.mp hmem with h1 | h1
            · exact hqx h1
            · exact hq h1
          have hprev : s.board q.1 q.2 = up (b0 q.1 q.2) := hall q hq2
          rcases dfs_board_upper 17 x.1 x.2 (buildTrie dict) [] s q with h1 | h1
          · rw [h1, hprev]
          · rw [h1, hprev, up_idem]
  apply key
  · exact fun q => Or.inl rfl
  · intro q hq
    exact absurd (mem_allCells q) hq

/-- Claim C3 counterexample: on a board holding a lowercase letter, a full
run does NOT leave every cell with exactly its original content — the final
`board[row][col] = letter` of `DFS` writes back the uppercased letter, so
cell (0,0) of an all-lowercase board ends as that letter uppercased. -/
theorem C3_cex :
    (runSearch (fun _ _ => 'x') []).board 0 0 = 'X' ∧
      (fun _ _ => 'x' : Board) 0 0 = 'x' ∧ ('X' : Char) ≠ 'x' :=
  ⟨by decide, rfl, by decide⟩

/-- Claim C3 (amended): after a complete run, every cell of the board holds
the UPPERCASED version of its original content.  In particular all in-use
sentinel markers are cleared, and a board whose letters are already
uppercase (as in the repository's driver) is restored exactly; but a
lowercase letter is permanently uppercased, as forced by `C3_cex`. -/
theorem C3_amended (b0 : Board) (dict : List (List Char)) :
    ∀ r c : Fin 4, (runSearch b0 dict).board r c = up (b0 r c) := by
  have h := runSearch_board_eq b0 dict
  revert h
  generalize runSearch b0 dict = s
  intro h r c
  exact h (r, c)

/-! ### Bisimulation: boards equal up to uppercasing give identical results -/

/-- Two boards that agree up to uppercasing and have the same sentinel
pattern. -/
def EquivBoard (b b2 : Board) : Prop :=
  ∀ q : Cell, up (b q.1 q.2) = up (b2 q.1 q.2) ∧ (b q.1 q.2 = '*' ↔ b2 q.1 q.2 = '*')

theorem dfs_bisim (fuel : Nat) :
    ∀ (r c : Fin 4) (t : TrieNode) (w : List Char) (st st2 : SearchState),
      EquivBoard st.board st2.board → st.validWords = st2.validWords →
      EquivBoard (dfs fuel r c t w st).board (dfs fuel r c t w st2).board ∧
        (dfs fuel r c t w st).validWords = (dfs fuel r c t w st2).validWords := by
  induction fuel with
  | zero =>
    intro r c t w st st2 hb hw
    exact ⟨hb, hw⟩
  | succ fuel ih =>
    intro r c t w st st2 hb hw
    obtain ⟨hup, hsiff⟩ := hb (r, c)
    by_cases hstar : st.board r c = '*'
    · have hstar2 : st2.board r c = '*' := hsiff.mp hstar
      rw [dfs_star _ hstar, dfs_star _ hstar2]
      exact ⟨hb, hw⟩
    · have hstar2 : ¬st2.board r c = '*' := fun h => hstar (hsiff.mpr h)
      have hlet : up (st.board r c) = up (st2.board r c) := hup
      cases hlk : lookupC t.children (up (st.board r c)) with
      | none =>
        have hlk2 : lookupC t.children (up (st2.board r c)) = none := by
          rw [← hlet]
          exact hlk
        rw [dfs_succ_none hstar hlk, dfs_succ_none hstar2 hlk2]
        constructor
        · intro q
          rw [restore_board, restore_board]
          simp only [state_board_mk]
          rw [updB_updB, updB_updB]
          by_cases hqc : q.1 = r ∧ q.2 = c
          · rw [updB_at hqc, updB_at hqc]
            exact ⟨by rw [up_idem, up_idem, hlet],
              iff_of_false (up_ne_star hstar) (up_ne_star hstar2)⟩
          · rw [updB_ne hqc, updB_ne hqc]
            exact hb q
        · rw [restore_words, restore_words]
          simp only [state_words_mk]
          exact hw
      | some child =>
        have hlk2 : lookupC t.children (up (st2.board r c)) = some child := by
          rw [← hlet]
          exact hlk
        rw [dfs_succ_some hstar hlk, dfs_succ_some hstar2 hlk2, ← hlet, ← hw]
        have hinit_b : EquivBoard (updB st.board r c '*') (updB st2.board r c '*') := by
          intro q
          by_cases hqc : q.1 = r ∧ q.2 = c
          · rw [updB_at hqc, updB_at hqc]
            exact ⟨rfl, Iff.rfl⟩
          · rw [updB_ne hqc, updB_ne hqc]
            exact hb q
        have hfold : ∀ (L : List Cell) (s s2 : SearchState),
            EquivBoard s.board s2.board → s.validWords = s2.validWords →
            EquivBoard
              ((L.foldl (fun a cell =>
                dfs fuel cell.1 cell.2 child (w ++ [up (st.board r c)]) a) s)).board
              ((L.foldl (fun a cell =>
                dfs fuel cell.1 cell.2 child (w ++ [up (st.board r c)]) a) s2)).board ∧
            (L.foldl (fun a cell =>
                dfs fuel cell.1 cell.2 child (w ++ [up (st.board r c)]) a) s).validWords =
              (L.foldl (fun a cell =>
                dfs fuel cell.1 cell.2 child (w ++ [up (st.board r c)]) a) s2).validWords := by
          intro L
          induction L with
          | nil =>
            intro s s2 h1 h2
            exact ⟨h1, h2⟩
          | cons x L ihL =>
            intro s s2 h1 h2
            rw [List.foldl_cons, List.foldl_cons]
            obtain ⟨h3, h4⟩ :=
              ih x.1 x.2 child (w ++ [up (st.board r c)]) s s2 h1 h2
            exact ihL _ _ h3 h4
        obtain ⟨hfb, hfw⟩ := hfold (getAdjCells r c)
          { board := updB st.board r c '*'
            validWords :=
              if child.valid = true ∧ 3 ≤ (w ++ [up (st.board r c)]).length then
                insert (w ++ [up (st.board r c)]) st.validWords
              else st.validWords }
          { board := updB st2.board r c '*'
            validWords :=
              if child.valid = true ∧ 3 ≤ (w ++ [up (st.board r c)]).length then
                insert (w ++ [up (st.board r c)]) st.validWords
              else st.validWords }
          (by simpa only [state_board_mk] using hinit_b) rfl
        constructor
        · intro q
          rw [restore_board, restore_board]
          by_cases hqc : q.1 = r ∧ q.2 = c
          · rw [updB_at hqc, updB_at hqc]
            exact ⟨rfl, Iff.rfl⟩
          · rw [updB_ne hqc, updB_ne hqc]
            exact hfb q
        · rw [restore_words, restore_words]
          exact hfw

theorem runSearch_bisim (b b2 : Board) (dict : List (List Char)) (h : EquivBoard b b2) :
    (runSearch b dict).validWords = (runSearch b2 dict).validWords := by
  unfold runSearch findValidWords
  have hfold : ∀ (L : List Cell) (s s2 : SearchState),
      EquivBoard s.board s2.board → s.validWords = s2.validWords →
      (L.foldl (fun a cell => dfs 17 cell.1 cell.2 (buildTrie dict) [] a) s).validWords =
        (L.foldl (fun a cell => dfs 17 cell.1 cell.2 (buildTrie dict) [] a) s2).validWords := by
    intro L
    induction L with
    | nil =>
      intro s s2 _ h2
      exact h2
    | cons x L ihL =>
      intro s s2 h1 h2
      rw [List.foldl_cons, List.foldl_cons]
      obtain ⟨h3, h4⟩ := dfs_bisim 17 x.1 x.2 (buildTrie dict) [] s s2 h1 h2
      exact ihL _ _ h3 h4
  apply hfold
  · exact fun q => h q
  · rfl

/-- Claim C5: determinism.  A second run on the very board object the first
run left behind (every cell uppercased, see `runSearch_board_eq`) returns
exactly the same result set; repeated runs on equal inputs are literally the
same value in this embedding, so the mutated-board case is the substantive
one. -/
theorem C5_determinism (b : Board) (dict : List (List Char)) :
    getValidWords ((runSearch b dict).board) dict = getValidWords b dict := by
  unfold getValidWords
  have hbeq := runSearch_board_eq b dict
  revert hbeq
  generalize hgen : runSearch b dict = s
  intro hbeq
  have hEquiv : EquivBoard s.board b := by
    intro q
    rw [hbeq q]
    exact ⟨up_idem _, up_star_iff⟩
  have h2 := runSearch_bisim s.board b dict hEquiv
  rw [h2, hgen]

/-- Claim C4 counterexample: a board with 4 rows whose second row has only 3
entries is not 4 columns everywhere, yet `generateValidWords` does NOT
report the invalid-board-size outcome — the source checks only the row count
and the FIRST row's length, so the ragged board proceeds to the search (the
Python program would then crash with an IndexError rather than report the
shape error). -/
theorem C4_cex :
    (([['C', 'A', 'T', 'S'], ['X', 'X', 'X'], ['X', 'X', 'X', 'X'],
        ['X', 'X', 'X', 'X']] : List (List Char)).length = 4 ∧
      (([['C', 'A', 'T', 'S'], ['X', 'X', 'X'], ['X', 'X', 'X', 'X'],
        ['X', 'X', 'X', 'X']] : List (List Char)).getD 1 []).length = 3) ∧
    generateValidWords
        [['C', 'A', 'T', 'S'], ['X', 'X', 'X'], ['X', 'X', 'X', 'X'], ['X', 'X', 'X', 'X']]
        [] = GVWResult.ok ∅ :=
  ⟨⟨by decide, by decide⟩, by decide⟩

/-- Claim C4 (amended): `generateValidWords` reports the distinct
invalid-board-size outcome exactly when the row count differs from 4 or the
FIRST row's length differs from 4, and in that case no trie is built and no
search is run; a 4-row board whose first row has 4 entries passes the check
even when another row does not (see `C4_cex`). -/
theorem C4_amended (board : List (List Char)) (dict : List (List Char)) :
    ((board.length ≠ 4 ∨ (board.headD []).length ≠ 4) →
      generateValidWords board dict =
        GVWResult.invalid "Invalid board size. Please use a 4x4 board.") ∧
      (¬(board.length ≠ 4 ∨ (board.headD []).length ≠ 4) →
        generateValidWords board dict =
          GVWResult.ok (getValidWords (toBoard board) dict)) := by
  constructor
  · intro h
    unfold generateValidWords
    rw [if_pos h]
  · intro h
    unfold generateValidWords
    rw [if_neg h]

theorem C4_amended_witness :
    (([['C'], ['A']] : List (List Char)).length ≠ 4 ∨
      (([['C'], ['A']] : List (List Char)).headD []).length ≠ 4) ∧
      generateValidWords [['C'], ['A']] [] =
        GVWResult.invalid "Invalid board size. Please use a 4x4 board." :=
  ⟨by decide, (C4_amended [['C'], ['A']] []).1 (by decide)⟩
